import Mathlib

/-!
# Verification of the mcphost hook scripts

A shallow embedding of `examples/hooks/bash-validator.py` and
`examples/hooks/mcp-monitor.py`, together with theorems settling the
behavioural claims of the specification against this embedding.

Modeling conventions:

* Characters are compared through their Unicode code points
  (`Char.toNat`), so all character-class tests are plain arithmetic.
* Python's `re` module is modelled by a small matcher covering exactly
  the regex constructs appearing in the two scripts: literal characters,
  `.` (any char except newline), character classes such as `[sh]` and
  `[a-z]`, `\s`, `\b`, `*` and `+` on single-character atoms.
  `re.IGNORECASE` is modelled by ASCII case folding, which is faithful
  for the all-ASCII patterns of the scripts.
* The backtracking matcher recurses on a fuel argument so that it is
  structurally recursive and kernel-computable.  Every recursive call
  strictly decreases the measure `rest.length * (items.length + 1) +
  items.length`, which never exceeds its initial value (the item list
  never grows), so the fuel chosen in `reSearch`/`reMatch`
  (`len * (items + 1) + items + 1`) strictly exceeds the deepest
  possible recursion and the fuel-out branch is unreachable.
* Process-level effects are reified: a run of a hook is a `HookResult`
  recording the exit status, the structured object printed to stdout (if
  any) and the message printed to stderr (if any).
-/

/-- `\w` of Python `re` restricted to ASCII: letters, digits, underscore.
Tested on the code point. -/
def isWordN (n : Nat) : Bool :=
  decide ((48 ≤ n ∧ n ≤ 57) ∨ (65 ≤ n ∧ n ≤ 90) ∨ (97 ≤ n ∧ n ≤ 122) ∨ n = 95)

/-- `\s` of Python `re` restricted to ASCII: space, tab, newline, carriage
return, vertical tab, form feed. -/
def isSpaceN (n : Nat) : Bool :=
  decide (n = 32 ∨ n = 9 ∨ n = 10 ∨ n = 13 ∨ n = 11 ∨ n = 12)

/-- ASCII case folding on code points: `A`-`Z` maps to `a`-`z`, everything
else is fixed.  Models the effect of `re.IGNORECASE` on the all-ASCII
patterns of the scripts. -/
def foldCaseN (n : Nat) : Nat :=
  if 65 ≤ n ∧ n ≤ 90 then n + 32 else n

/-- Single-character regex atoms used by the scripts. -/
inductive Atom where
  | lit (c : Char)
  | anyChar
  | cls (cs : List Char)
  | range (lo hi : Char)
  | space
deriving DecidableEq, Repr

/-- Items of the linear regexes used by the scripts: a one-character atom,
a starred atom, or a word boundary.  `a+` is expressed as `a` followed by
`a*`. -/
inductive RItem where
  | atom (a : Atom)
  | star (a : Atom)
  | wordB
deriving DecidableEq, Repr

/-- Does atom `a` match the character with code point `n`?  `ci` switches
on `re.IGNORECASE` (ASCII case folding). -/
def atomMatchesN (ci : Bool) (a : Atom) (n : Nat) : Bool :=
  let f : Nat → Nat := fun m => if ci then foldCaseN m else m
  match a with
  | .lit c => f c.toNat == f n
  | .anyChar => n != 10
  | .cls cs => cs.any (fun c => f c.toNat == f n)
  | .range lo hi => decide (lo.toNat ≤ f n ∧ f n ≤ hi.toNat)
  | .space => isSpaceN n

/-- Does atom `a` match character `c`? -/
def atomMatches (ci : Bool) (a : Atom) (c : Char) : Bool :=
  atomMatchesN ci a c.toNat

/-- Word-character test of an optional character, the ends of the string
counting as non-word. -/
def wordOpt : Option Char → Bool
  | none => false
  | some c => isWordN c.toNat

/-- `\b`: the word-ness of the previous character differs from the
word-ness of the next one. -/
def atBoundary (prev : Option Char) (rest : List Char) : Bool :=
  wordOpt prev != wordOpt rest.head?

/-- Backtracking matcher: does the item list match some prefix of `rest`,
where `prev` is the character just before `rest` (for `\b`)?  The fuel
argument makes the recursion structural; see the header comment for the
bound argument showing the fuel chosen by `reSearch` is always
sufficient. -/
def matchItemsF (ci : Bool) : Nat → List RItem → Option Char → List Char → Bool
  | 0, _, _, _ => false
  | _ + 1, [], _, _ => true
  | f + 1, .wordB :: rs, prev, rest =>
      atBoundary prev rest && matchItemsF ci f rs prev rest
  | f + 1, .atom a :: rs, _, c :: cs =>
      atomMatches ci a c && matchItemsF ci f rs (some c) cs
  | _ + 1, .atom _ :: _, _, [] => false
  | f + 1, .star a :: rs, prev, rest =>
      matchItemsF ci f rs prev rest ||
      (match rest with
       | [] => false
       | c :: cs => atomMatches ci a c && matchItemsF ci f (.star a :: rs) (some c) cs)

/-- Try `matchItemsF` at every start position (Python `re.search`),
threading the previous character for word boundaries. -/
def searchFromF (ci : Bool) (fuel : Nat) (r : List RItem) :
    Option Char → List Char → Bool
  | prev, s =>
      matchItemsF ci fuel r prev s ||
      (match s with
       | [] => false
       | c :: cs => searchFromF ci fuel r (some c) cs)

/-- Fuel that strictly dominates the recursion depth of `matchItemsF` on
`r` and any suffix of `s`. -/
def fuelFor (r : List RItem) (s : List Char) : Nat :=
  s.length * (r.length + 1) + r.length + 1

/-- Model of `re.search(pattern, s, flags)`: the pattern matches at some
position of `s`. -/
def reSearch (ci : Bool) (r : List RItem) (s : String) : Bool :=
  searchFromF ci (fuelFor r s.toList) r none s.toList

/-- Model of `re.match(pattern, s)`: the pattern matches at the start
of `s`. -/
def reMatch (ci : Bool) (r : List RItem) (s : String) : Bool :=
  matchItemsF ci (fuelFor r s.toList) r none s.toList

/-- Literal characters of a string as regex items. -/
def lits (s : String) : List RItem :=
  s.toList.map (fun c => RItem.atom (Atom.lit c))

/-- `\s+` as items: one mandatory space atom followed by a starred one. -/
def plusSpace : List RItem := [.atom .space, .star .space]

/-- Pattern `\brm\s+-rf\s+/` of `DANGEROUS_PATTERNS`. -/
def patRmRf : List RItem :=
  [.wordB] ++ lits "rm" ++ plusSpace ++ lits "-rf" ++ plusSpace ++ lits "/"

/-- Pattern `\bdd\s+.*\bof=/dev/[sh]d[a-z]` of `DANGEROUS_PATTERNS`. -/
def patDd : List RItem :=
  [.wordB] ++ lits "dd" ++ plusSpace ++ [.star .anyChar, .wordB] ++
    lits "of=/dev/" ++ [.atom (.cls ['s', 'h']), .atom (.lit 'd'), .atom (.range 'a' 'z')]

/-- Pattern `>\s*/dev/null\s+2>&1` of `DANGEROUS_PATTERNS`. -/
def patDevNull : List RItem :=
  lits ">" ++ [.star .space] ++ lits "/dev/null" ++ plusSpace ++ lits "2>&1"

/-- Pattern `\bgrep\b` of `SUGGEST_ALTERNATIVES`. -/
def patGrep : List RItem := [.wordB] ++ lits "grep" ++ [.wordB]

/-- Pattern `\bfind\s+.*-name` of `SUGGEST_ALTERNATIVES`. -/
def patFind : List RItem :=
  [.wordB] ++ lits "find" ++ plusSpace ++ [.star .anyChar] ++ lits "-name"

/-- Pattern `mcp__github__delete_.*` of `BLOCKED_MCP_TOOLS`. -/
def patGhDelete : List RItem := lits "mcp__github__delete_" ++ [.star .anyChar]

/-- Pattern `mcp__aws__.*_production` of `BLOCKED_MCP_TOOLS`. -/
def patAwsProd : List RItem :=
  lits "mcp__aws__" ++ [.star .anyChar] ++ lits "_production"

/-- Pattern `mcp__openai__.*` of `RATE_LIMITS`. -/
def patOpenai : List RItem := lits "mcp__openai__" ++ [.star .anyChar]

/-- `DANGEROUS_PATTERNS` of bash-validator.py: ordered (pattern, message)
pairs, searched with `re.IGNORECASE`. -/
def DANGEROUS_PATTERNS : List (List RItem × String) :=
  [(patRmRf, "Dangerous command: rm -rf /"),
   (patDd, "Direct disk write detected"),
   (patDevNull, "Consider using proper error handling instead of discarding stderr")]

/-- `SUGGEST_ALTERNATIVES` of bash-validator.py, in dict insertion order
(the iteration order of the Python loop), searched case-sensitively. -/
def SUGGEST_ALTERNATIVES : List (List RItem × String) :=
  [(patGrep, "Use \x27rg\x27 (ripgrep) for better performance"),
   (patFind, "Use \x27fd\x27 for faster file finding")]

/-- Reified outcome of one hook process run: the exit status, the
structured `{decision, reason}` object printed to stdout (if any), and
the message printed to stderr (if any). -/
structure DecisionObj where
  decision : String
  reason : String
deriving DecidableEq, Repr

structure HookResult where
  exitCode : Nat
  stdoutObj : Option DecisionObj
  stderrMsg : Option String
deriving DecidableEq, Repr

/-- The `for pattern, message in DANGEROUS_PATTERNS` loop of
bash-validator.py: message of the first rule whose pattern matches, in
declaration order. -/
def firstMatch (ci : Bool) (rules : List (List RItem × String)) (cmd : String) :
    Option String :=
  match rules with
  | [] => none
  | (p, m) :: rs => if reSearch ci p cmd then some m else firstMatch ci rs cmd

/-- The suggestion-collecting loop of bash-validator.py: messages of all
matching suggestion rules, in declaration order. -/
def matchingMsgs (ci : Bool) (rules : List (List RItem × String)) (cmd : String) :
    List String :=
  rules.filterMap (fun pm => if reSearch ci pm.1 cmd then some pm.2 else none)

/-- `main` of bash-validator.py after the stdin JSON has been decoded,
parameterised by the rule tables.  `commandRes` models the extraction
`json.loads(input_data.get("tool_input", "\x7b\x7d")).get("command", "")`:
`.ok cmd` when it yields a string, `.error e` when it raises (malformed
JSON, non-object, or a non-string command, all of which fall into the
top-level `except` handler). -/
def bashValidatorWith (dangerous suggest : List (List RItem × String))
    (tool_name : String) (commandRes : Except String String) : HookResult :=
  if tool_name ≠ "bash" then ⟨0, none, none⟩
  else
    match commandRes with
    | .error e => ⟨1, none, some ("Hook error: " ++ e)⟩
    | .ok command =>
      match firstMatch true dangerous command with
      | some msg => ⟨2, none, some msg⟩
      | none =>
        let suggestions := matchingMsgs false suggest command
        if suggestions.isEmpty then ⟨0, none, none⟩
        else ⟨0, some ⟨"approve",
               "Command approved. Suggestions: " ++ String.intercalate "; " suggestions⟩,
              none⟩

/-- `main` of bash-validator.py with its actual rule tables. -/
def bashValidator : String → Except String String → HookResult :=
  bashValidatorWith DANGEROUS_PATTERNS SUGGEST_ALTERNATIVES

/-! ## mcp-monitor.py -/

/-! JSON values as decoded by Python's `json` module, with integer
numbers (float formatting is out of scope).  Arrays and objects are
mutually inductive lists so that structural recursion and induction stay
elementary. -/
mutual
inductive Json where
  | null : Json
  | boolean : Bool → Json
  | num : Int → Json
  | str : List Char → Json
  | arr : JArr → Json
  | obj : JObj → Json
deriving Repr
inductive JArr where
  | nil : JArr
  | cons : Json → JArr → JArr
deriving Repr
inductive JObj where
  | onil : JObj
  | ocons : List Char → Json → JObj → JObj
deriving Repr
end

/-- The audit record of mcp-monitor.py (`log_entry`): timestamp, tool
name and the raw `tool_input` value.  There is no verdict field. -/
structure LogEntry where
  timestamp : String
  tool : String
  input : Json

/-- `BLOCKED_MCP_TOOLS` of mcp-monitor.py. -/
def BLOCKED_MCP_TOOLS : List (List RItem) := [patGhDelete, patAwsProd]

/-- `RATE_LIMITS` of mcp-monitor.py: pattern with (maxCalls, windowSeconds). -/
def RATE_LIMITS : List (List RItem × (Nat × Nat)) := [(patOpenai, (10, 60))]

/-- `check_rate_limit` of mcp-monitor.py, verbatim: the stub keeps no
state and always allows the call. -/
def check_rate_limit (tool_name : String) (limits : Nat × Nat) : Bool :=
  true

/-- The `for pattern in BLOCKED_MCP_TOOLS` loop: does any blocked
pattern `re.match` the tool name?  (The loop exits on the first match;
the printed reason only mentions the tool name, so which pattern fired
is immaterial.) -/
def firstBlocked (pats : List (List RItem)) (tool : String) : Bool :=
  pats.any (fun p => reMatch false p tool)

/-- The `for pattern, (limit, window) in RATE_LIMITS.items()` loop:
the first policy whose pattern matches and whose `check_rate_limit`
fails, if any. -/
def rateLimitBlock (lims : List (List RItem × (Nat × Nat))) (tool : String) :
    Option (Nat × Nat) :=
  match lims with
  | [] => none
  | (p, lw) :: rest =>
      if reMatch false p tool && !(check_rate_limit tool lw) then some lw
      else rateLimitBlock rest tool

/-- `main` of mcp-monitor.py after the stdin JSON has been decoded.
`tool_input` is the raw `input_data.get("tool_input", \x7b\x7d)` value;
`now` is `datetime.now().isoformat()`; `writeOk` is false when creating
the log directory or appending to the log file raises (that exception
falls into the top-level `except` handler with text `errMsg`).  The
second component is the audit record appended to `mcp-usage.jsonl`, when
one is written. -/
def mcpMonitor (tool_name : String) (tool_input : Json) (now : String)
    (writeOk : Bool) (errMsg : String) : HookResult × Option LogEntry :=
  if firstBlocked BLOCKED_MCP_TOOLS tool_name then
    (⟨0, some ⟨"block", "Tool " ++ tool_name ++ " is blocked by security policy"⟩,
      none⟩, none)
  else
    match rateLimitBlock RATE_LIMITS tool_name with
    | some (limit, window) =>
        (⟨0, some ⟨"block",
           "Rate limit exceeded: " ++ toString limit ++ " calls per " ++
             toString window ++ "s"⟩, none⟩, none)
    | none =>
        if writeOk then (⟨0, none, none⟩, some ⟨now, tool_name, tool_input⟩)
        else (⟨1, none, some ("Hook error: " ++ errMsg)⟩, none)

/-! ## Substring test (used to state "the reason contains message m") -/

/-- Is `n` a prefix of `h` (as character lists)? -/
def startsWithL : List Char → List Char → Bool
  | [], _ => true
  | _ :: _, [] => false
  | a :: as, b :: bs => a == b && startsWithL as bs

/-- Does `n` occur as a contiguous substring of `h`? -/
def containsL (n : List Char) : List Char → Bool
  | [] => startsWithL n []
  | c :: t => startsWithL n (c :: t) || containsL n t

/-! ## Lemmas about the first-match loop of bash-validator.py -/

theorem firstMatch_eq_none_iff (ci : Bool) (rules : List (List RItem × String))
    (cmd : String) :
    firstMatch ci rules cmd = none ↔ ∀ pm ∈ rules, reSearch ci pm.1 cmd = false := by
  induction rules with
  | nil => simp [firstMatch]
  | cons pm rs ih =>
      obtain ⟨p, m⟩ := pm
      by_cases h : reSearch ci p cmd = true
      · simp [firstMatch, h]
      · simp only [Bool.not_eq_true] at h
        simp [firstMatch, h, ih]

/-! ## Claims -/

/-- **C1 (counterexample).** The rate-limit policy `(10, 60)` applies to
`mcp__openai__chat` (its pattern matches), the stub `check_rate_limit`
allows the call, and the monitor approves it silently (exit 0, no block
object).  The program keeps no counter whatsoever, so this is the result
of *every* call in a window — in particular the 11th call within 60
seconds is allowed, contradicting the claim that the `(N+1)`-th call in
one window is rejected. -/
theorem rateLimitClaimFails :
    reMatch false patOpenai "mcp__openai__chat" = true ∧
    check_rate_limit "mcp__openai__chat" (10, 60) = true ∧
    (mcpMonitor "mcp__openai__chat" Json.null "2026-01-01T00:00:11" true "").1 =
      ⟨0, none, none⟩ := by
  decide

/-- The reason string printed by bash-validator.py when at least one
suggestion matches. -/
def suggReason (cmd : String) : String :=
  "Command approved. Suggestions: " ++
    String.intercalate "; " (matchingMsgs false SUGGEST_ALTERNATIVES cmd)

/-! ## Case (in)sensitivity

Two strings are "equal up to letter case" when the ASCII case foldings
of their code points agree pointwise.  We show the case-insensitive
matcher cannot distinguish such strings. -/

/-- Case-folded code point of a character. -/
def foldKey (c : Char) : Nat := foldCaseN c.toNat

/-! ## JSON serialisation (`json.dumps(log_entry) + "\n"`)

Model of Python's `json.dumps` with its defaults (`ensure_ascii=True`,
separators `", "` and `": "`): printable ASCII passes through, quote and
backslash and the common control characters get two-character escapes,
every other below-space or above-tilde code point becomes `\uXXXX`
(lower-case hex), and astral characters become a UTF-16 surrogate pair
of `\uXXXX` escapes.  A canonical decoder is defined alongside and the
round-trip is proved. -/

/-- Lower-case hex digit for `d < 16`. -/
def hexDigChar (d : Nat) : Char := Char.ofNat (if d < 10 then 48 + d else 87 + d)

/-- Four lower-case hex digits of `n % 0x10000`. -/
def hex4 (n : Nat) : List Char :=
  [hexDigChar (n / 4096 % 16), hexDigChar (n / 256 % 16), hexDigChar (n / 16 % 16),
   hexDigChar (n % 16)]

/-- `json.dumps` escaping of one character (ensure_ascii). -/
def escChar (c : Char) : List Char :=
  if c = '"' then ['\\', '"']
  else if c = '\\' then ['\\', '\\']
  else if c = '\n' then ['\\', 'n']
  else if c = '\t' then ['\\', 't']
  else if c = '\r' then ['\\', 'r']
  else if c.toNat = 8 then ['\\', 'b']
  else if c.toNat = 12 then ['\\', 'f']
  else if c.toNat < 32 ∨ (127 ≤ c.toNat ∧ c.toNat < 65536) then
    '\\' :: 'u' :: hex4 c.toNat
  else if 65536 ≤ c.toNat then
    ('\\' :: 'u' :: hex4 (55296 + (c.toNat - 65536) / 1024)) ++
      ('\\' :: 'u' :: hex4 (56320 + (c.toNat - 65536) % 1024))
  else [c]

/-- Escaped body of a JSON string. -/
def escStrL : List Char → List Char
  | [] => []
  | c :: cs => escChar c ++ escStrL cs

/-- Decimal digit character. -/
def digitChar (d : Nat) : Char := Char.ofNat (48 + d)

/-- Decimal digits of `n` accumulated in front of `acc`; the fuel is at
least `n`, which covers the number of divisions by ten. -/
def natDigsF : Nat → Nat → List Char → List Char
  | 0, _, acc => acc
  | f + 1, n, acc =>
      if n = 0 then acc else natDigsF f (n / 10) (digitChar (n % 10) :: acc)

/-- Canonical decimal digits of a natural number. -/
def natDigs (n : Nat) : List Char := if n = 0 then ['0'] else natDigsF n n []

/-- `json.dumps` of an integer. -/
def dumpInt : Int → List Char
  | .ofNat n => natDigs n
  | .negSucc m => '-' :: natDigs (m + 1)

mutual
def dumpJson : Json → List Char
  | .null => ['n', 'u', 'l', 'l']
  | .boolean true => ['t', 'r', 'u', 'e']
  | .boolean false => ['f', 'a', 'l', 's', 'e']
  | .num i => dumpInt i
  | .str s => '"' :: escStrL s ++ ['"']
  | .arr a => '[' :: dumpArr a ++ [']']
  | .obj o => '{' :: dumpObj o ++ ['}']
def dumpArr : JArr → List Char
  | .nil => []
  | .cons v .nil => dumpJson v
  | .cons v (.cons w tl) => dumpJson v ++ ',' :: ' ' :: dumpArr (.cons w tl)
def dumpObj : JObj → List Char
  | .onil => []
  | .ocons k v .onil => '"' :: escStrL k ++ '"' :: ':' :: ' ' :: dumpJson v
  | .ocons k v (.ocons k2 w tl) =>
      ('"' :: escStrL k ++ '"' :: ':' :: ' ' :: dumpJson v) ++
        ',' :: ' ' :: dumpObj (.ocons k2 w tl)
end

/-! Sizes bounding the recursion depth of the decoder. -/
mutual
def jsizeV : Json → Nat
  | .null => 1
  | .boolean _ => 1
  | .num _ => 1
  | .str _ => 1
  | .arr a => 1 + jsizeA a
  | .obj o => 1 + jsizeO o
def jsizeA : JArr → Nat
  | .nil => 0
  | .cons v tl => 1 + jsizeV v + jsizeA tl
def jsizeO : JObj → Nat
  | .onil => 0
  | .ocons _ v tl => 1 + jsizeV v + jsizeO tl
end

/-! ### The canonical decoder -/

/-- Strip an expected literal prefix. -/
def stripLit : List Char → List Char → Option (List Char)
  | [], s => some s
  | _ :: _, [] => none
  | c :: cs, d :: ds => if c = d then stripLit cs ds else none

/-- Value of one hex digit character. -/
def parseHexDig (c : Char) : Option Nat :=
  if 48 ≤ c.toNat ∧ c.toNat ≤ 57 then some (c.toNat - 48)
  else if 97 ≤ c.toNat ∧ c.toNat ≤ 102 then some (c.toNat - 87)
  else if 65 ≤ c.toNat ∧ c.toNat ≤ 70 then some (c.toNat - 55)
  else none

/-- Value of a two-character escape. -/
def escUnescape (e : Char) : Option Nat :=
  if e = '"' then some 34
  else if e = '\\' then some 92
  else if e = '/' then some 47
  else if e = 'n' then some 10
  else if e = 't' then some 9
  else if e = 'r' then some 13
  else if e = 'b' then some 8
  else if e = 'f' then some 12
  else none

/-- Parse a JSON string body up to the closing quote, producing UTF-16
code units (surrogates are combined afterwards). -/
def parseStrBody : List Char → Option (List Nat × List Char)
  | [] => none
  | c :: rest =>
      if c = '"' then some ([], rest)
      else if c = '\\' then
        match rest with
        | [] => none
        | e :: rest1 =>
            if e = 'u' then
              match rest1 with
              | a :: b :: c2 :: d :: rest2 =>
                  match parseHexDig a, parseHexDig b, parseHexDig c2, parseHexDig d with
                  | some x, some y, some z, some w =>
                      match parseStrBody rest2 with
                      | some (us, r) => some ((x * 4096 + y * 256 + z * 16 + w) :: us, r)
                      | none => none
                  | _, _, _, _ => none
              | _ => none
            else
              match escUnescape e with
              | some u =>
                  match parseStrBody rest1 with
                  | some (us, r) => some (u :: us, r)
                  | none => none
              | none => none
      else
        match parseStrBody rest with
        | some (us, r) => some (c.toNat :: us, r)
        | none => none

/-- Combine UTF-16 code units into characters (surrogate pairs become
astral code points; lone surrogates are rejected). -/
def combineUnits : List Nat → Option (List Char)
  | [] => some []
  | u :: us =>
      if 55296 ≤ u ∧ u ≤ 56319 then
        match us with
        | [] => none
        | v :: us1 =>
            if 56320 ≤ v ∧ v ≤ 57343 then
              match combineUnits us1 with
              | some cs =>
                  some (Char.ofNat (65536 + (u - 55296) * 1024 + (v - 56320)) :: cs)
              | none => none
            else none
      else if 56320 ≤ u ∧ u ≤ 57343 then none
      else if u < 1114112 then
        match combineUnits us with
        | some cs => some (Char.ofNat u :: cs)
        | none => none
      else none

/-- Decimal digit test. -/
def isDigitC (c : Char) : Bool := decide (48 ≤ c.toNat ∧ c.toNat ≤ 57)

/-- Longest digit prefix and the remainder. -/
def takeDigits : List Char → List Char × List Char
  | [] => ([], [])
  | c :: rest =>
      if isDigitC c then
        ((c :: (takeDigits rest).1), (takeDigits rest).2)
      else ([], c :: rest)

/-- Numeric value of a digit string. -/
def digitsVal (ds : List Char) : Nat :=
  ds.foldl (fun a c => a * 10 + (c.toNat - 48)) 0

/-- Parse an optionally-signed decimal integer (maximal munch). -/
def parseIntTok : List Char → Option (Int × List Char)
  | [] => none
  | c :: rest =>
      if c = '-' then
        match takeDigits rest with
        | ([], _) => none
        | (ds, r) => some (-(digitsVal ds : Int), r)
      else
        match takeDigits (c :: rest) with
        | ([], _) => none
        | (ds, r) => some ((digitsVal ds : Int), r)

/-- Wrap a parsed integer as a JSON value. -/
def mkNum : Option (Int × List Char) → Option (Json × List Char)
  | some (i, r) => some (.num i, r)
  | none => none

/-- Wrap a parsed literal as a fixed JSON value. -/
def mkLit (v : Json) : Option (List Char) → Option (Json × List Char)
  | some r => some (v, r)
  | none => none

/-- Decode the body of a JSON string: unescape to code units, then
combine surrogate pairs. -/
def parseKey (s : List Char) : Option (List Char × List Char) :=
  match parseStrBody s with
  | some (us, r) =>
      match combineUnits us with
      | some k => some (k, r)
      | none => none
  | none => none

def mkStrV : Option (List Char × List Char) → Option (Json × List Char)
  | some (cs, r) => some (.str cs, r)
  | none => none

def mkArrV : Option (JArr × List Char) → Option (Json × List Char)
  | some (a, r) => some (.arr a, r)
  | none => none

def mkObjV : Option (JObj × List Char) → Option (Json × List Char)
  | some (o, r) => some (.obj o, r)
  | none => none

def mkCons (v : Json) : Option (JArr × List Char) → Option (JArr × List Char)
  | some (tl, r) => some (.cons v tl, r)
  | none => none

def mkOCons (k : List Char) (v : Json) :
    Option (JObj × List Char) → Option (JObj × List Char)
  | some (tl, r) => some (.ocons k v tl, r)
  | none => none

/-- Consume one expected character. -/
def expect (ch : Char) : List Char → Option (List Char)
  | [] => none
  | c :: r => if c = ch then some r else none

/-- Consume two expected characters. -/
def expect2 (a b : Char) (s : List Char) : Option (List Char) :=
  match expect a s with
  | some r => expect b r
  | none => none

mutual
def parseValue : Nat → List Char → Option (Json × List Char)
  | 0, _ => none
  | _ + 1, [] => none
  | f + 1, c :: s =>
      if c = '-' ∨ isDigitC c = true then mkNum (parseIntTok (c :: s))
      else if c = 'n' then mkLit .null (stripLit ['u', 'l', 'l'] s)
      else if c = 't' then mkLit (.boolean true) (stripLit ['r', 'u', 'e'] s)
      else if c = 'f' then mkLit (.boolean false) (stripLit ['a', 'l', 's', 'e'] s)
      else if c = '"' then mkStrV (parseKey s)
      else if c = '[' then
        match s with
        | [] => none
        | d :: s1 =>
            if d = ']' then some (.arr .nil, s1)
            else mkArrV (parseArrItems f (d :: s1))
      else if c = '{' then
        match s with
        | [] => none
        | d :: s1 =>
            if d = '}' then some (.obj .onil, s1)
            else mkObjV (parseObjItems f (d :: s1))
      else none
def parseArrItems : Nat → List Char → Option (JArr × List Char)
  | 0, _ => none
  | f + 1, s =>
      match parseValue f s with
      | none => none
      | some (v, r) =>
          match r with
          | [] => none
          | d :: r1 =>
              if d = ']' then some (.cons v .nil, r1)
              else if d = ',' then
                match expect ' ' r1 with
                | some r2 => mkCons v (parseArrItems f r2)
                | none => none
              else none
def parseObjItems : Nat → List Char → Option (JObj × List Char)
  | 0, _ => none
  | _ + 1, [] => none
  | f + 1, c :: s =>
      if c = '"' then
        match parseKey s with
        | none => none
        | some (k, r) =>
            match expect2 ':' ' ' r with
            | none => none
            | some r2 =>
                match parseValue f r2 with
                | none => none
                | some (v, r3) =>
                    match r3 with
                    | [] => none
                    | g :: r4 =>
                        if g = '}' then some (.ocons k v .onil, r4)
                        else if g = ',' then
                          match expect ' ' r4 with
                          | some r5 => mkOCons k v (parseObjItems f r5)
                          | none => none
                        else none
      else none
end

/-- The JSON value `json.dumps` receives for a `log_entry`. -/
def entryJson (e : LogEntry) : Json :=
  .obj (.ocons "timestamp".toList (.str e.timestamp.toList)
    (.ocons "tool".toList (.str e.tool.toList)
      (.ocons "input".toList e.input .onil)))

/-- The line that `f.write(json.dumps(log_entry) + "\n")` appends to
`mcp-usage.jsonl`. -/
def encodeLine (e : LogEntry) : List Char := dumpJson (entryJson e) ++ ['\n']

/-- Decode one appended line back into a JSON value. -/
def decodeLine (l : List Char) : Option Json :=
  match parseValue l.length l with
  | some (v, r) => if r = ['\n'] then some v else none
  | none => none

/-- Field lookup in a decoded JSON object. -/
def jFieldO (k : List Char) : JObj → Option Json
  | .onil => none
  | .ocons k1 v tl => if k1 = k then some v else jFieldO k tl

def jField (j : Json) (k : List Char) : Option Json :=
  match j with
  | .obj o => jFieldO k o
  | _ => none

/-- UTF-16 code units of one character. -/
def charUnits (c : Char) : List Nat :=
  if c.toNat < 65536 then [c.toNat]
  else [55296 + (c.toNat - 65536) / 1024, 56320 + (c.toNat - 65536) % 1024]

/-- UTF-16 code units of a string. -/
def unitsOf : List Char → List Nat
  | [] => []
  | c :: cs => charUnits c ++ unitsOf cs

/-- Does the input not start with a decimal digit?  (Numbers are parsed
with maximal munch, so the round-trip lemma requires this of the
trailing context.) -/
def noDigitStart : List Char → Bool
  | [] => true
  | c :: _ => !isDigitC c

/-! ### Round-trip lemmas -/

theorem toNat_ofNat_valid {n : Nat} (h : n.isValidChar) :
    (Char.ofNat n).toNat = n := by
  simp only [Char.ofNat, h, dif_pos]
  simp [Char.ofNatAux, Char.toNat, UInt32.toNat]

/-- Digit accumulation value starting from `a`. -/
def valFrom (a : Nat) (ds : List Char) : Nat :=
  ds.foldl (fun x c => x * 10 + (c.toNat - 48)) a

theorem firstMatch_isSome_of_exists (ci : Bool) (rules : List (List RItem × String))
    (cmd : String) (h : ∃ pm ∈ rules, reSearch ci pm.1 cmd = true) :
    ∃ m, firstMatch ci rules cmd = some m := by
  rcases Option.eq_none_or_eq_some (firstMatch ci rules cmd) with hn | ⟨m, hm⟩
  · rw [firstMatch_eq_none_iff] at hn
    obtain ⟨pm, hmem, hsearch⟩ := h
    rw [hn pm hmem] at hsearch
    exact absurd hsearch (by simp)
  · exact ⟨m, hm⟩

/-- Appending rules after the list never changes an already-found first
match. -/
theorem firstMatch_append (ci : Bool) (rules extra : List (List RItem × String))
    (cmd : String) (m : String) (h : firstMatch ci rules cmd = some m) :
    firstMatch ci (rules ++ extra) cmd = some m := by
  induction rules with
  | nil => simp [firstMatch] at h
  | cons pm rs ih =>
      obtain ⟨p, m'⟩ := pm
      by_cases hp : reSearch ci p cmd = true
      · simpa [firstMatch, hp] using h
      · simp only [Bool.not_eq_true] at hp
        simp only [firstMatch, hp] at h ⊢
        simp only [Bool.false_eq_true, if_false]
        exact ih h

/-- The message returned by the first-match loop is the message of the
first rule, in declaration order, whose pattern matches. -/
theorem firstMatch_spec (ci : Bool) (rules : List (List RItem × String))
    (cmd : String) (m : String) (h : firstMatch ci rules cmd = some m) :
    ∃ pre p post, rules = pre ++ (p, m) :: post ∧ reSearch ci p cmd = true ∧
      ∀ pm ∈ pre, reSearch ci pm.1 cmd = false := by
  induction rules with
  | nil => simp [firstMatch] at h
  | cons pm rs ih =>
      obtain ⟨p, m'⟩ := pm
      by_cases hp : reSearch ci p cmd = true
      · refine ⟨[], p, rs, ?_, hp, by simp⟩
        simp only [firstMatch, hp, if_true, Option.some.injEq] at h
        simp [h]
      · simp only [Bool.not_eq_true] at hp
        simp only [firstMatch, hp, Bool.false_eq_true, if_false] at h
        obtain ⟨pre, q, post, hsplit, hq, hpre⟩ := ih h
        refine ⟨(p, m') :: pre, q, post, by simp [hsplit], hq, ?_⟩
        intro pm hmem
        rcases List.mem_cons.mp hmem with rfl | hmem
        · exact hp
        · exact hpre pm hmem

/-- A matched dangerous pattern makes bash-validator.py print the first
matching message on stderr and exit 2. -/
theorem bashValidatorWith_blocked (dangerous suggest : List (List RItem × String))
    (cmd m : String) (h : firstMatch true dangerous cmd = some m) :
    bashValidatorWith dangerous suggest "bash" (.ok cmd) = ⟨2, none, some m⟩ := by
  simp [bashValidatorWith, h]

/-- The rate-limit loop of mcp-monitor.py can never produce a block: the
`check_rate_limit` stub always allows. -/
theorem rateLimitBlock_eq_none (tool : String) :
    rateLimitBlock RATE_LIMITS tool = none := by
  simp [rateLimitBlock, RATE_LIMITS, check_rate_limit]

/-- A blocked tool name makes mcp-monitor.py print the structured block
object on stdout and exit 0, writing no audit record. -/
theorem mcpMonitor_blocked (tool : String) (input : Json) (now : String)
    (writeOk : Bool) (errMsg : String)
    (h : firstBlocked BLOCKED_MCP_TOOLS tool = true) :
    mcpMonitor tool input now writeOk errMsg =
      (⟨0, some ⟨"block", "Tool " ++ tool ++ " is blocked by security policy"⟩, none⟩,
       none) := by
  simp [mcpMonitor, h]

/-- A non-blocked tool name reaches the logging step of mcp-monitor.py:
with a successful write it exits 0 silently and appends the record,
with a failing write it exits 1 with a hook-error on stderr and appends
nothing. -/
theorem mcpMonitor_not_blocked (tool : String) (input : Json) (now : String)
    (writeOk : Bool) (errMsg : String)
    (h : firstBlocked BLOCKED_MCP_TOOLS tool = false) :
    mcpMonitor tool input now writeOk errMsg =
      if writeOk then (⟨0, none, none⟩, some ⟨now, tool, input⟩)
      else (⟨1, none, some ("Hook error: " ++ errMsg)⟩, none) := by
  simp [mcpMonitor, h, rateLimitBlock_eq_none]

/-- **C1 (amended).** `check_rate_limit` is an always-allowing stub: every
call matching a rate-limit policy passes the check, the rate-limit block
branch of `main` is unreachable, and every invocation not caught by a
blocked-tool pattern is allowed regardless of how many calls occurred in
the window. -/
theorem rateLimitStubAlwaysAllows (tool : String) (lims : Nat × Nat)
    (input : Json) (now errMsg : String)
    (h : firstBlocked BLOCKED_MCP_TOOLS tool = false) :
    check_rate_limit tool lims = true ∧
    rateLimitBlock RATE_LIMITS tool = none ∧
    (mcpMonitor tool input now true errMsg).1 = ⟨0, none, none⟩ := by
  refine ⟨rfl, rateLimitBlock_eq_none tool, ?_⟩
  rw [mcpMonitor_not_blocked tool input now true errMsg h]
  rfl

theorem rateLimitStubAlwaysAllowsWitness :
    check_rate_limit "mcp__openai__chat" (10, 60) = true ∧
    rateLimitBlock RATE_LIMITS "mcp__openai__chat" = none ∧
    (mcpMonitor "mcp__openai__chat" Json.null "2026-01-01T00:00:11" true "").1 =
      ⟨0, none, none⟩ :=
  rateLimitStubAlwaysAllows "mcp__openai__chat" (10, 60) Json.null
    "2026-01-01T00:00:11" "" (by decide)

/-- **C2 (counterexample).** The blocked tool `mcp__github__delete_repo`
produces a Block decision, but the monitor writes the structured block
object to *stdout* and exits with status 0 — not status 2, and nothing
is written to stderr. -/
theorem blockExitStatusClaimFails :
    (mcpMonitor "mcp__github__delete_repo" Json.null "t" true "").1 =
      ⟨0, some ⟨"block", "Tool mcp__github__delete_repo is blocked by security policy"⟩,
       none⟩ ∧
    (mcpMonitor "mcp__github__delete_repo" Json.null "t" true "").1.exitCode ≠ 2 ∧
    (mcpMonitor "mcp__github__delete_repo" Json.null "t" true "").1.stderrMsg =
      none := by
  decide

/-- **C2 (amended).** The two blocking paths use different channels: a
dangerous-command Block in bash-validator.py writes the diagnostic to
stderr and exits 2, while a blocked-tool-name Block in mcp-monitor.py
writes the structured `{decision: "block", reason}` object to stdout and
exits 0. -/
theorem blockChannelsPerScript :
    (∀ (suggest : List (List RItem × String)) (cmd m : String),
       firstMatch true DANGEROUS_PATTERNS cmd = some m →
       bashValidatorWith DANGEROUS_PATTERNS suggest "bash" (.ok cmd) =
         ⟨2, none, some m⟩) ∧
    (∀ (tool : String) (input : Json) (now : String) (writeOk : Bool) (errMsg : String),
       firstBlocked BLOCKED_MCP_TOOLS tool = true →
       (mcpMonitor tool input now writeOk errMsg).1 =
         ⟨0, some ⟨"block", "Tool " ++ tool ++ " is blocked by security policy"⟩,
          none⟩) := by
  constructor
  · intro suggest cmd m h
    exact bashValidatorWith_blocked DANGEROUS_PATTERNS suggest cmd m h
  · intro tool input now writeOk errMsg h
    rw [mcpMonitor_blocked tool input now writeOk errMsg h]

theorem blockChannelsPerScriptWitness :
    bashValidatorWith DANGEROUS_PATTERNS SUGGEST_ALTERNATIVES "bash" (.ok "rm -rf /") =
      ⟨2, none, some "Dangerous command: rm -rf /"⟩ ∧
    (mcpMonitor "mcp__github__delete_repo" Json.null "t" true "").1 =
      ⟨0, some ⟨"block", "Tool mcp__github__delete_repo is blocked by security policy"⟩,
       none⟩ :=
  ⟨blockChannelsPerScript.1 SUGGEST_ALTERNATIVES "rm -rf /"
     "Dangerous command: rm -rf /" (by decide),
   blockChannelsPerScript.2 "mcp__github__delete_repo" Json.null "t" true ""
     (by decide)⟩

/-- **C3 (counterexample).** The invocation of `mcp__slack__post` is
approved (exit 0) when the audit write succeeds, but when the write
fails the exception falls into the top-level handler and the process
exits 1 with a hook error — the audit failure *does* change the reported
outcome. -/
theorem auditFailureClaimFails :
    (mcpMonitor "mcp__slack__post" Json.null "t" true "").1.exitCode = 0 ∧
    mcpMonitor "mcp__slack__post" Json.null "t" false "disk full" =
      (⟨1, none, some "Hook error: disk full"⟩, none) ∧
    (mcpMonitor "mcp__slack__post" Json.null "t" false "disk full").1.exitCode ≠
      0 :=
  ⟨rfl, rfl, by decide⟩

/-- **C3 (amended).** For every invocation that is not blocked, a failure
while appending the audit record is caught by the top-level exception
handler, reported on stderr as `Hook error: ...`, and the process exits
with status 1 instead of the approve status 0. -/
theorem auditFailureChangesExit (tool : String) (input : Json) (now errMsg : String)
    (h : firstBlocked BLOCKED_MCP_TOOLS tool = false) :
    mcpMonitor tool input now false errMsg =
      (⟨1, none, some ("Hook error: " ++ errMsg)⟩, none) ∧
    (mcpMonitor tool input now true errMsg).1.exitCode = 0 := by
  rw [mcpMonitor_not_blocked tool input now false errMsg h,
    mcpMonitor_not_blocked tool input now true errMsg h]
  simp

theorem auditFailureChangesExitWitness :
    mcpMonitor "mcp__slack__post" Json.null "t" false "disk full" =
      (⟨1, none, some "Hook error: disk full"⟩, none) ∧
    (mcpMonitor "mcp__slack__post" Json.null "t" true "disk full").1.exitCode = 0 :=
  auditFailureChangesExit "mcp__slack__post" Json.null "t" "disk full" (by decide)

/-- **C4 (counterexample).** The blocked invocation of
`mcp__github__delete_repo` resolves to a Block verdict, yet *no* audit
record is written: mcp-monitor.py exits before reaching the logging
step, so the audit log does not receive one record per invocation. -/
theorem auditEveryInvocationClaimFails :
    (mcpMonitor "mcp__github__delete_repo" Json.null "t" true "").1.stdoutObj =
      some ⟨"block", "Tool mcp__github__delete_repo is blocked by security policy"⟩ ∧
    (mcpMonitor "mcp__github__delete_repo" Json.null "t" true "").2 = none :=
  ⟨by decide, rfl⟩

/-- **C4 (amended).** Only invocations that pass the blocked-tool check
(and whose write succeeds) are logged; the record then contains exactly
the timestamp, the tool name and the tool input — no verdict field —
while invocations blocked by a tool-name rule produce no audit record at
all. -/
theorem auditRecordScope (tool : String) (input : Json) (now errMsg : String) :
    (firstBlocked BLOCKED_MCP_TOOLS tool = false →
       mcpMonitor tool input now true errMsg =
         (⟨0, none, none⟩, some ⟨now, tool, input⟩)) ∧
    (firstBlocked BLOCKED_MCP_TOOLS tool = true →
       (mcpMonitor tool input now true errMsg).2 = none) := by
  constructor
  · intro h
    rw [mcpMonitor_not_blocked tool input now true errMsg h]
    simp
  · intro h
    rw [mcpMonitor_blocked tool input now true errMsg h]

theorem auditRecordScopeWitness :
    mcpMonitor "mcp__slack__post" Json.null "t" true "" =
      (⟨0, none, none⟩, some ⟨"t", "mcp__slack__post", Json.null⟩) ∧
    (mcpMonitor "mcp__github__delete_repo" Json.null "t" true "").2 = none :=
  ⟨(auditRecordScope "mcp__slack__post" Json.null "t" "").1 (by decide),
   (auditRecordScope "mcp__github__delete_repo" Json.null "t" "").2 (by decide)⟩

/-- **C6.** If at least one dangerous (Block) rule matches the command,
the validator blocks: it exits 2 with the message of the first matching
rule in declaration order on stderr, and appending further (matching or
not) block rules changes neither the action nor the message. -/
theorem blockRuleMonotone (dangerous extra suggest : List (List RItem × String))
    (cmd : String) (h : ∃ pm ∈ dangerous, reSearch true pm.1 cmd = true) :
    ∃ m, firstMatch true dangerous cmd = some m ∧
      (∃ pre p post, dangerous = pre ++ (p, m) :: post ∧
        reSearch true p cmd = true ∧ ∀ pm ∈ pre, reSearch true pm.1 cmd = false) ∧
      bashValidatorWith dangerous suggest "bash" (.ok cmd) = ⟨2, none, some m⟩ ∧
      bashValidatorWith (dangerous ++ extra) suggest "bash" (.ok cmd) =
        ⟨2, none, some m⟩ := by
  obtain ⟨m, hm⟩ := firstMatch_isSome_of_exists true dangerous cmd h
  exact ⟨m, hm, firstMatch_spec true dangerous cmd m hm,
    bashValidatorWith_blocked dangerous suggest cmd m hm,
    bashValidatorWith_blocked (dangerous ++ extra) suggest cmd m
      (firstMatch_append true dangerous extra cmd m hm)⟩

theorem blockRuleMonotoneWitness :
    bashValidatorWith DANGEROUS_PATTERNS SUGGEST_ALTERNATIVES "bash"
      (.ok "rm -rf / > /dev/null 2>&1") =
      ⟨2, none, some "Dangerous command: rm -rf /"⟩ ∧
    bashValidatorWith (DANGEROUS_PATTERNS ++ [(patGrep, "added block rule")])
      SUGGEST_ALTERNATIVES "bash" (.ok "rm -rf / > /dev/null 2>&1") =
      ⟨2, none, some "Dangerous command: rm -rf /"⟩ := by
  obtain ⟨m, hm, hspec, h1, h2⟩ :=
    blockRuleMonotone DANGEROUS_PATTERNS [(patGrep, "added block rule")]
      SUGGEST_ALTERNATIVES "rm -rf / > /dev/null 2>&1"
      ⟨(patRmRf, "Dangerous command: rm -rf /"), by decide, by decide⟩
  have hmv := hm.symm.trans
    (by decide : firstMatch true DANGEROUS_PATTERNS "rm -rf / > /dev/null 2>&1" =
      some "Dangerous command: rm -rf /")
  injection hmv with hmv
  subst hmv
  exact ⟨h1, h2⟩

/-- **C9.** Any request whose `tool_name` is not exactly the string
`"bash"` (including other casings such as `"Bash"`) makes the validator
exit 0 with no output, whatever the `tool_input` payload holds — even a
malformed one. -/
theorem nonBashSilentApprove (tool : String) (commandRes : Except String String)
    (h : tool ≠ "bash") :
    bashValidator tool commandRes = ⟨0, none, none⟩ := by
  simp [bashValidator, bashValidatorWith, h]

theorem nonBashSilentApproveWitness :
    bashValidator "Bash" (.ok "rm -rf /") = ⟨0, none, none⟩ ∧
    bashValidator "Bash" (.error "malformed tool_input") = ⟨0, none, none⟩ :=
  ⟨nonBashSilentApprove "Bash" (.ok "rm -rf /") (by decide),
   nonBashSilentApprove "Bash" (.error "malformed tool_input") (by decide)⟩

/-- **C10.** A command matching the stderr-discard pattern
`>\s*/dev/null\s+2>&1` and neither of the two earlier dangerous patterns
is *blocked*: exit 2 with the error-handling message on stderr — a
blocking rule, not an advisory suggestion. -/
theorem devNullRedirectBlocks (cmd : String)
    (h3 : reSearch true patDevNull cmd = true)
    (h1 : reSearch true patRmRf cmd = false)
    (h2 : reSearch true patDd cmd = false) :
    bashValidator "bash" (.ok cmd) =
      ⟨2, none,
       some "Consider using proper error handling instead of discarding stderr"⟩ := by
  have hfm : firstMatch true DANGEROUS_PATTERNS cmd =
      some "Consider using proper error handling instead of discarding stderr" := by
    simp [firstMatch, DANGEROUS_PATTERNS, h1, h2, h3]
  exact bashValidatorWith_blocked DANGEROUS_PATTERNS SUGGEST_ALTERNATIVES cmd _ hfm

/-- The collected suggestion messages are exactly the messages of the
matching suggestion rules. -/
theorem matchingMsgs_mem_iff (ci : Bool) (rules : List (List RItem × String))
    (cmd m : String) :
    m ∈ matchingMsgs ci rules cmd ↔
      ∃ pm ∈ rules, reSearch ci pm.1 cmd = true ∧ pm.2 = m := by
  simp only [matchingMsgs, List.mem_filterMap]
  constructor
  · rintro ⟨pm, hpm, hif⟩
    by_cases hr : reSearch ci pm.1 cmd = true
    · exact ⟨pm, hpm, hr, by simpa [hr] using hif⟩
    · simp only [Bool.not_eq_true] at hr
      simp [hr] at hif
  · rintro ⟨pm, hpm, hr, rfl⟩
    exact ⟨pm, hpm, by simp [hr]⟩

/-- **C7.** If no dangerous (Block) rule matches and at least one
suggestion rule does, the validator prints the structured
`{decision: "approve", reason}` object on stdout and exits 0; the reason
is the semicolon-join of the matching suggestion messages, it contains
every matching suggestion's message, never contains a block rule's
message, and the collected messages are exactly those of the matching
suggestion rules (set equality). -/
theorem suggestOnlyApprove (cmd : String)
    (hb : ∀ pm ∈ DANGEROUS_PATTERNS, reSearch true pm.1 cmd = false)
    (hs : ∃ pm ∈ SUGGEST_ALTERNATIVES, reSearch false pm.1 cmd = true) :
    bashValidator "bash" (.ok cmd) =
      ⟨0, some ⟨"approve", suggReason cmd⟩, none⟩ ∧
    (∀ pm ∈ SUGGEST_ALTERNATIVES, reSearch false pm.1 cmd = true →
       containsL pm.2.toList (suggReason cmd).toList = true) ∧
    (∀ pm ∈ DANGEROUS_PATTERNS,
       containsL pm.2.toList (suggReason cmd).toList = false) ∧
    (∀ m, m ∈ matchingMsgs false SUGGEST_ALTERNATIVES cmd ↔
       ∃ pm ∈ SUGGEST_ALTERNATIVES, reSearch false pm.1 cmd = true ∧ pm.2 = m) := by
  have hfm : firstMatch true DANGEROUS_PATTERNS cmd = none :=
    (firstMatch_eq_none_iff true DANGEROUS_PATTERNS cmd).mpr hb
  have hne : (matchingMsgs false SUGGEST_ALTERNATIVES cmd).isEmpty = false := by
    obtain ⟨pm, hpm, hr⟩ := hs
    have hmm : pm.2 ∈ matchingMsgs false SUGGEST_ALTERNATIVES cmd :=
      (matchingMsgs_mem_iff false SUGGEST_ALTERNATIVES cmd pm.2).mpr ⟨pm, hpm, hr, rfl⟩
    rcases hmml : matchingMsgs false SUGGEST_ALTERNATIVES cmd with _ | ⟨a, l⟩
    · rw [hmml] at hmm
      simp at hmm
    · simp
  refine ⟨?_, ?_, ?_, matchingMsgs_mem_iff false SUGGEST_ALTERNATIVES cmd⟩
  · simp only [bashValidator, bashValidatorWith, if_neg (by simp : ¬ "bash" ≠ "bash"),
      hfm, suggReason]
    simp [hne]
  · intro pm hpm hr
    simp only [SUGGEST_ALTERNATIVES, List.mem_cons, List.not_mem_nil, or_false] at hpm
    cases hg : reSearch false patGrep cmd <;> cases hf : reSearch false patFind cmd
    · rcases hpm with rfl | rfl
      · rw [hg] at hr
        simp at hr
      · rw [hf] at hr
        simp at hr
    · have hsr : suggReason cmd =
          "Command approved. Suggestions: Use \x27fd\x27 for faster file finding" := by
        simp only [suggReason, matchingMsgs, SUGGEST_ALTERNATIVES, List.filterMap_cons,
          List.filterMap_nil, hg, hf]
        decide
      rcases hpm with rfl | rfl
      · rw [hg] at hr
        simp at hr
      · rw [hsr]
        decide
    · have hsr : suggReason cmd =
          "Command approved. Suggestions: Use \x27rg\x27 (ripgrep) for better performance" := by
        simp only [suggReason, matchingMsgs, SUGGEST_ALTERNATIVES, List.filterMap_cons,
          List.filterMap_nil, hg, hf]
        decide
      rcases hpm with rfl | rfl
      · rw [hsr]
        decide
      · rw [hf] at hr
        simp at hr
    · have hsr : suggReason cmd =
          "Command approved. Suggestions: Use \x27rg\x27 (ripgrep) for better performance; Use \x27fd\x27 for faster file finding" := by
        simp only [suggReason, matchingMsgs, SUGGEST_ALTERNATIVES, List.filterMap_cons,
          List.filterMap_nil, hg, hf]
        decide
      rcases hpm with rfl | rfl
      · rw [hsr]
        decide
      · rw [hsr]
        decide
  · intro pm hpm
    simp only [DANGEROUS_PATTERNS, List.mem_cons, List.not_mem_nil, or_false] at hpm
    cases hg : reSearch false patGrep cmd <;> cases hf : reSearch false patFind cmd
    · obtain ⟨pm', hpm', hr'⟩ := hs
      simp only [SUGGEST_ALTERNATIVES, List.mem_cons, List.not_mem_nil, or_false] at hpm'
      rcases hpm' with rfl | rfl
      · rw [hg] at hr'
        simp at hr'
      · rw [hf] at hr'
        simp at hr'
    · have hsr : suggReason cmd =
          "Command approved. Suggestions: Use \x27fd\x27 for faster file finding" := by
        simp only [suggReason, matchingMsgs, SUGGEST_ALTERNATIVES, List.filterMap_cons,
          List.filterMap_nil, hg, hf]
        decide
      rcases hpm with rfl | rfl | rfl <;> rw [hsr] <;> decide
    · have hsr : suggReason cmd =
          "Command approved. Suggestions: Use \x27rg\x27 (ripgrep) for better performance" := by
        simp only [suggReason, matchingMsgs, SUGGEST_ALTERNATIVES, List.filterMap_cons,
          List.filterMap_nil, hg, hf]
        decide
      rcases hpm with rfl | rfl | rfl <;> rw [hsr] <;> decide
    · have hsr : suggReason cmd =
          "Command approved. Suggestions: Use \x27rg\x27 (ripgrep) for better performance; Use \x27fd\x27 for faster file finding" := by
        simp only [suggReason, matchingMsgs, SUGGEST_ALTERNATIVES, List.filterMap_cons,
          List.filterMap_nil, hg, hf]
        decide
      rcases hpm with rfl | rfl | rfl <;> rw [hsr] <;> decide

theorem suggestOnlyApproveWitness :
    bashValidator "bash" (.ok "grep foo file.txt") =
      ⟨0, some ⟨"approve", suggReason "grep foo file.txt"⟩, none⟩ :=
  (suggestOnlyApprove "grep foo file.txt" (by decide)
    ⟨(patGrep, "Use \x27rg\x27 (ripgrep) for better performance"),
     by decide, by decide⟩).1

theorem devNullRedirectBlocksWitness :
    bashValidator "bash" (.ok "ls > /dev/null 2>&1") =
      ⟨2, none,
       some "Consider using proper error handling instead of discarding stderr"⟩ :=
  devNullRedirectBlocks "ls > /dev/null 2>&1" (by decide) (by decide) (by decide)

theorem foldCaseN_eq_cases {n m : Nat} (h : foldCaseN n = foldCaseN m) :
    n = m ∨ (65 ≤ n ∧ n ≤ 90 ∧ m = n + 32) ∨ (65 ≤ m ∧ m ≤ 90 ∧ n = m + 32) := by
  unfold foldCaseN at h
  split at h <;> split at h <;> omega

theorem isSpaceN_congr {n m : Nat} (h : foldCaseN n = foldCaseN m) :
    isSpaceN n = isSpaceN m := by
  rcases foldCaseN_eq_cases h with rfl | ⟨h1, h2, rfl⟩ | ⟨h1, h2, rfl⟩
  · rfl
  · unfold isSpaceN
    rw [decide_eq_decide]
    omega
  · unfold isSpaceN
    rw [decide_eq_decide]
    omega

theorem isWordN_congr {n m : Nat} (h : foldCaseN n = foldCaseN m) :
    isWordN n = isWordN m := by
  rcases foldCaseN_eq_cases h with rfl | ⟨h1, h2, rfl⟩ | ⟨h1, h2, rfl⟩
  · rfl
  · unfold isWordN
    rw [decide_eq_decide]
    omega
  · unfold isWordN
    rw [decide_eq_decide]
    omega

theorem bne_ten_congr {n m : Nat} (h : foldCaseN n = foldCaseN m) :
    (n != 10) = (m != 10) := by
  rcases foldCaseN_eq_cases h with rfl | ⟨h1, h2, rfl⟩ | ⟨h1, h2, rfl⟩
  · rfl
  · have hn : (n != 10) = true := bne_iff_ne.mpr (by omega)
    have hm : (n + 32 != 10) = true := bne_iff_ne.mpr (by omega)
    rw [hn, hm]
  · have hn : (m + 32 != 10) = true := bne_iff_ne.mpr (by omega)
    have hm : (m != 10) = true := bne_iff_ne.mpr (by omega)
    rw [hn, hm]

/-- The case-insensitive atom test only sees the case folding of the
character. -/
theorem atomMatchesN_congr (a : Atom) {n m : Nat} (h : foldCaseN n = foldCaseN m) :
    atomMatchesN true a n = atomMatchesN true a m := by
  cases a with
  | lit c => simp [atomMatchesN, h]
  | anyChar => simpa [atomMatchesN] using bne_ten_congr h
  | cls cs => simp [atomMatchesN, h]
  | range lo hi => simp [atomMatchesN, h]
  | space => simpa [atomMatchesN] using isSpaceN_congr h

theorem wordOpt_congr {p q : Option Char} (h : p.map foldKey = q.map foldKey) :
    wordOpt p = wordOpt q := by
  cases p <;> cases q <;> simp_all [wordOpt, foldKey]
  exact isWordN_congr h

theorem headKey_congr {s t : List Char} (hs : s.map foldKey = t.map foldKey) :
    s.head?.map foldKey = t.head?.map foldKey := by
  cases s <;> cases t <;> simp_all

theorem atBoundary_congr {p q : Option Char} {s t : List Char}
    (hp : p.map foldKey = q.map foldKey)
    (hs : s.map foldKey = t.map foldKey) :
    atBoundary p s = atBoundary q t := by
  unfold atBoundary
  rw [wordOpt_congr hp, wordOpt_congr (headKey_congr hs)]

/-- The case-insensitive matcher cannot distinguish strings that agree
up to letter case. -/
theorem matchItemsF_congr (f : Nat) (r : List RItem) (p q : Option Char)
    (s t : List Char) (hp : p.map foldKey = q.map foldKey)
    (hs : s.map foldKey = t.map foldKey) :
    matchItemsF true f r p s = matchItemsF true f r q t := by
  induction f generalizing r p q s t with
  | zero => rfl
  | succ f ih =>
      cases r with
      | nil => rfl
      | cons i rs =>
          cases i with
          | wordB =>
              simp only [matchItemsF]
              rw [atBoundary_congr hp hs, ih rs p q s t hp hs]
          | atom a =>
              cases s with
              | nil =>
                  cases t with
                  | nil => rfl
                  | cons d ds => simp at hs
              | cons c cs =>
                  cases t with
                  | nil => simp at hs
                  | cons d ds =>
                      simp only [List.map_cons, List.cons.injEq] at hs
                      obtain ⟨hc, hcs⟩ := hs
                      simp only [matchItemsF]
                      rw [show atomMatches true a c = atomMatches true a d from
                          atomMatchesN_congr a hc,
                        ih rs (some c) (some d) cs ds (by simpa [foldKey] using hc)
                          hcs]
          | star a =>
              simp only [matchItemsF]
              rw [ih rs p q s t hp hs]
              congr 1
              cases s with
              | nil =>
                  cases t with
                  | nil => rfl
                  | cons d ds => simp at hs
              | cons c cs =>
                  cases t with
                  | nil => simp at hs
                  | cons d ds =>
                      simp only [List.map_cons, List.cons.injEq] at hs
                      obtain ⟨hc, hcs⟩ := hs
                      show (atomMatches true a c &&
                          matchItemsF true f (.star a :: rs) (some c) cs) =
                        (atomMatches true a d &&
                          matchItemsF true f (.star a :: rs) (some d) ds)
                      rw [show atomMatches true a c = atomMatches true a d from
                          atomMatchesN_congr a hc,
                        ih (.star a :: rs) (some c) (some d) cs ds
                          (by simpa [foldKey] using hc) hcs]

theorem searchFromF_congr (fuel : Nat) (r : List RItem) (p q : Option Char)
    (s t : List Char) (hp : p.map foldKey = q.map foldKey)
    (hs : s.map foldKey = t.map foldKey) :
    searchFromF true fuel r p s = searchFromF true fuel r q t := by
  induction s generalizing p q t with
  | nil =>
      cases t
      · simp only [searchFromF]
        rw [matchItemsF_congr fuel r p q [] [] hp rfl]
      · simp at hs
  | cons c cs ih =>
      cases t with
      | nil => simp at hs
      | cons d ds =>
          simp only [List.map_cons, List.cons.injEq] at hs
          obtain ⟨hc, hcs⟩ := hs
          simp only [searchFromF]
          rw [matchItemsF_congr fuel r p q (c :: cs) (d :: ds) hp
              (by simp [hc, hcs]),
            ih (some c) (some d) ds (by simpa [foldKey] using hc) hcs]

/-- `re.search` with `re.IGNORECASE` gives the same verdict on strings
that agree up to letter case. -/
theorem reSearch_congr (r : List RItem) (s t : String)
    (h : s.toList.map foldKey = t.toList.map foldKey) :
    reSearch true r s = reSearch true r t := by
  have hlen : s.toList.length = t.toList.length := by
    have := congrArg List.length h
    simpa using this
  unfold reSearch fuelFor
  rw [hlen, searchFromF_congr _ r none none s.toList t.toList rfl h]

/-- The dangerous-pattern loop gives the same first match on strings
that agree up to letter case. -/
theorem firstMatch_ci_congr (rules : List (List RItem × String)) (s t : String)
    (h : s.toList.map foldKey = t.toList.map foldKey) :
    firstMatch true rules s = firstMatch true rules t := by
  induction rules with
  | nil => rfl
  | cons pm rs ih =>
      obtain ⟨p, m⟩ := pm
      simp only [firstMatch]
      rw [reSearch_congr p s t h, ih]

/-- **C5.** Dangerous-command matching is case-insensitive — the
dangerous-pattern verdict is invariant under changing letter case of the
command, and `RM -RF /` is blocked exactly like `rm -rf /` — while
blocked-tool matching is case-sensitive: `mcp__github__delete_repo` is
blocked but `MCP__github__delete_repo` is not. -/
theorem caseSensitivityAsymmetry :
    (∀ cmd cmd' : String,
       cmd.toList.map foldKey = cmd'.toList.map foldKey →
       firstMatch true DANGEROUS_PATTERNS cmd = firstMatch true DANGEROUS_PATTERNS cmd') ∧
    bashValidator "bash" (.ok "RM -RF /") =
      ⟨2, none, some "Dangerous command: rm -rf /"⟩ ∧
    bashValidator "bash" (.ok "rm -rf /") =
      ⟨2, none, some "Dangerous command: rm -rf /"⟩ ∧
    firstBlocked BLOCKED_MCP_TOOLS "mcp__github__delete_repo" = true ∧
    firstBlocked BLOCKED_MCP_TOOLS "MCP__github__delete_repo" = false ∧
    (mcpMonitor "MCP__github__delete_repo" Json.null "t" true "").1.stdoutObj =
      none := by
  refine ⟨fun cmd cmd' h => firstMatch_ci_congr DANGEROUS_PATTERNS cmd cmd' h,
    by decide, by decide, by decide, by decide, by decide⟩

theorem caseSensitivityAsymmetryWitness :
    firstMatch true DANGEROUS_PATTERNS "RM -RF /" =
      firstMatch true DANGEROUS_PATTERNS "rm -rf /" :=
  caseSensitivityAsymmetry.1 "RM -RF /" "rm -rf /" (by decide)

theorem char_valid_nat (c : Char) :
    c.toNat < 55296 ∨ 57343 < c.toNat ∧ c.toNat < 1114112 := by
  have := c.valid
  simpa [UInt32.isValidChar, Nat.isValidChar] using this

theorem stripLit_append (pre s : List Char) : stripLit pre (pre ++ s) = some s := by
  induction pre with
  | nil => rfl
  | cons c cs ih => simp [stripLit, ih]

theorem parseHexDig_hexDigChar {d : Nat} (h : d < 16) :
    parseHexDig (hexDigChar d) = some d := by
  unfold hexDigChar parseHexDig
  by_cases h10 : d < 10
  · rw [if_pos h10]
    rw [toNat_ofNat_valid (by left; omega)]
    rw [if_pos (by omega)]
    congr 1
    omega
  · rw [if_neg h10]
    rw [toNat_ofNat_valid (by left; omega)]
    rw [if_neg (by omega), if_pos (by omega)]
    congr 1
    omega
theorem parseStrBody_u (n : Nat) (h16 : n < 65536) (rest : List Char) :
    parseStrBody ('\\' :: 'u' :: hex4 n ++ rest) =
      (parseStrBody rest).map (fun p => (n :: p.1, p.2)) := by
  have e1 := parseHexDig_hexDigChar (d := n / 4096 % 16) (by omega)
  have e2 := parseHexDig_hexDigChar (d := n / 256 % 16) (by omega)
  have e3 := parseHexDig_hexDigChar (d := n / 16 % 16) (by omega)
  have e4 := parseHexDig_hexDigChar (d := n % 16) (by omega)
  have hval : n / 4096 % 16 * 4096 + n / 256 % 16 * 256 + n / 16 % 16 * 16 + n % 16 =
      n := by omega
  simp only [hex4, List.cons_append, List.nil_append]
  rw [parseStrBody.eq_def]
  simp only [reduceIte, reduceCtorEq]
  cases hp : parseStrBody rest with
  | none => simp [hp, e1, e2, e3, e4]
  | some p =>
      obtain ⟨us, r⟩ := p
      simp [hp, e1, e2, e3, e4, hval]

theorem parseStrBody_escChar (c : Char) (rest : List Char) :
    parseStrBody (escChar c ++ rest) =
      (parseStrBody rest).map (fun p => (charUnits c ++ p.1, p.2)) := by
  have hv := char_valid_nat c
  unfold escChar
  split_ifs with h1 h2 h3 h4 h5 h6 h7 h8 h9
  · subst h1
    rw [parseStrBody.eq_def]
    simp only [List.cons_append, reduceIte, reduceCtorEq]
    cases hp : parseStrBody rest with
    | none => simp [hp, escUnescape, charUnits]
    | some p => obtain ⟨us, r⟩ := p; simp [hp, escUnescape, charUnits]
  · subst h2
    rw [parseStrBody.eq_def]
    simp only [List.cons_append, reduceIte, reduceCtorEq]
    cases hp : parseStrBody rest with
    | none => simp [hp, escUnescape, charUnits]
    | some p => obtain ⟨us, r⟩ := p; simp [hp, escUnescape, charUnits]
  · subst h3
    rw [parseStrBody.eq_def]
    simp only [List.cons_append, reduceIte, reduceCtorEq]
    cases hp : parseStrBody rest with
    | none => simp [hp, escUnescape, charUnits]
    | some p => obtain ⟨us, r⟩ := p; simp [hp, escUnescape, charUnits]
  · subst h4
    rw [parseStrBody.eq_def]
    simp only [List.cons_append, reduceIte, reduceCtorEq]
    cases hp : parseStrBody rest with
    | none => simp [hp, escUnescape, charUnits]
    | some p => obtain ⟨us, r⟩ := p; simp [hp, escUnescape, charUnits]
  · subst h5
    rw [parseStrBody.eq_def]
    simp only [List.cons_append, reduceIte, reduceCtorEq]
    cases hp : parseStrBody rest with
    | none => simp [hp, escUnescape, charUnits]
    | some p => obtain ⟨us, r⟩ := p; simp [hp, escUnescape, charUnits]
  · rw [parseStrBody.eq_def]
    simp only [List.cons_append, reduceIte, reduceCtorEq]
    cases hp : parseStrBody rest with
    | none => simp [hp, escUnescape, charUnits, h6]
    | some p => obtain ⟨us, r⟩ := p; simp [hp, escUnescape, charUnits, h6]
  · rw [parseStrBody.eq_def]
    simp only [List.cons_append, reduceIte, reduceCtorEq]
    cases hp : parseStrBody rest with
    | none => simp [hp, escUnescape, charUnits, h7]
    | some p => obtain ⟨us, r⟩ := p; simp [hp, escUnescape, charUnits, h7]
  · rw [parseStrBody_u c.toNat (by omega) rest]
    have hc : charUnits c = [c.toNat] := by simp [charUnits]; omega
    rw [hc]
    cases hp : parseStrBody rest with
    | none => simp [hp]
    | some p => obtain ⟨us, r⟩ := p; simp [hp]
  · have hn : 57343 < c.toNat ∧ c.toNat < 1114112 := by omega
    rw [List.append_assoc, parseStrBody_u _ (by omega),
      parseStrBody_u _ (by omega)]
    have hc : charUnits c =
        [55296 + (c.toNat - 65536) / 1024, 56320 + (c.toNat - 65536) % 1024] := by
      simp only [charUnits]
      rw [if_neg (by omega)]
    rw [hc]
    cases hp : parseStrBody rest with
    | none => simp [hp]
    | some p => obtain ⟨us, r⟩ := p; simp [hp]
  · rw [List.singleton_append, parseStrBody.eq_def]
    have hu : c.toNat < 65536 := by omega
    have hc : charUnits c = [c.toNat] := by simp [charUnits, hu]
    simp only [h1, h2, if_false, ite_false, reduceIte]
    cases hp : parseStrBody rest with
    | none => simp [hp, hc]
    | some p => obtain ⟨us, r⟩ := p; simp [hp, hc]

theorem parseStrBody_escStrL (s rest : List Char) :
    parseStrBody (escStrL s ++ '"' :: rest) = some (unitsOf s, rest) := by
  induction s with
  | nil =>
      rw [show escStrL [] ++ '"' :: rest = '"' :: rest by simp [escStrL],
        parseStrBody.eq_def]
      simp [unitsOf]
  | cons c cs ih =>
      rw [show escStrL (c :: cs) = escChar c ++ escStrL cs from rfl,
        List.append_assoc, parseStrBody_escChar, ih]
      simp [unitsOf]

theorem combineUnits_charUnits (c : Char) (us : List Nat) :
    combineUnits (charUnits c ++ us) =
      (combineUnits us).map (fun cs => c :: cs) := by
  have hv := char_valid_nat c
  by_cases h16 : c.toNat < 65536
  · have hc : charUnits c = [c.toNat] := by simp [charUnits, h16]
    have hs1 : ¬(55296 ≤ c.toNat ∧ c.toNat ≤ 56319) := by omega
    have hs2 : ¬(56320 ≤ c.toNat ∧ c.toNat ≤ 57343) := by omega
    have hs3 : c.toNat < 1114112 := by omega
    rw [hc, List.singleton_append, combineUnits.eq_def]
    simp only [hs1, hs2, hs3, if_false, if_true, ite_false, ite_true]
    cases hp : combineUnits us with
    | none => simp [hp]
    | some cs => simp [hp, Char.ofNat_toNat]
  · have hn : 57343 < c.toNat ∧ c.toNat < 1114112 := by omega
    have hc : charUnits c =
        [55296 + (c.toNat - 65536) / 1024, 56320 + (c.toNat - 65536) % 1024] := by
      simp only [charUnits]
      rw [if_neg h16]
    have hu1 : 55296 ≤ 55296 + (c.toNat - 65536) / 1024 ∧
        55296 + (c.toNat - 65536) / 1024 ≤ 56319 := by
      constructor <;> omega
    have hu2 : 56320 ≤ 56320 + (c.toNat - 65536) % 1024 ∧
        56320 + (c.toNat - 65536) % 1024 ≤ 57343 := by
      constructor <;> omega
    have hval : Char.ofNat (65536 + (c.toNat - 65536) / 1024 * 1024 +
        (c.toNat - 65536) % 1024) = c := by
      have heq : 65536 + (c.toNat - 65536) / 1024 * 1024 +
          (c.toNat - 65536) % 1024 = c.toNat := by omega
      rw [heq, Char.ofNat_toNat]
    rw [hc, List.cons_append, List.singleton_append, combineUnits.eq_def]
    simp only [hu1, hu2, if_true, ite_true]
    cases hp : combineUnits us with
    | none => simp [hp]
    | some cs => simp [hp, hval]

theorem combineUnits_unitsOf (s : List Char) :
    combineUnits (unitsOf s) = some s := by
  induction s with
  | nil => rfl
  | cons c cs ih =>
      rw [show unitsOf (c :: cs) = charUnits c ++ unitsOf cs from rfl,
        combineUnits_charUnits, ih]
      rfl

theorem natDigsF_zero (f : Nat) (acc : List Char) : natDigsF f 0 acc = acc := by
  cases f <;> simp [natDigsF]

theorem natDigsF_spec : ∀ (f n : Nat) (acc : List Char), 0 < n → n ≤ f →
    ∃ ds, natDigsF f n acc = ds ++ acc ∧ ds ≠ [] ∧
      (∀ c ∈ ds, 48 ≤ c.toNat ∧ c.toNat ≤ 57) ∧
      ∀ a, valFrom a ds = a * 10 ^ ds.length + n := by
  intro f
  induction f with
  | zero => intro n acc hn hf; omega
  | succ f ih =>
      intro n acc hn hf
      have hd : (digitChar (n % 10)).toNat = 48 + n % 10 := by
        unfold digitChar
        rw [toNat_ofNat_valid (by left; omega)]
      rw [show natDigsF (f + 1) n acc =
          natDigsF f (n / 10) (digitChar (n % 10) :: acc) by
        rw [natDigsF]
        rw [if_neg (by omega)]]
      by_cases h10 : n / 10 = 0
      · rw [h10, natDigsF_zero]
        refine ⟨[digitChar (n % 10)], rfl, by simp, ?_, ?_⟩
        · intro c hc
          simp only [List.mem_singleton] at hc
          subst hc
          omega
        · intro a
          simp only [valFrom, List.foldl_cons, List.foldl_nil, List.length_singleton,
            pow_one, hd]
          omega
      · obtain ⟨ds, hds, hne, hdig, hval⟩ :=
          ih (n / 10) (digitChar (n % 10) :: acc) (by omega) (by omega)
        refine ⟨ds ++ [digitChar (n % 10)], by simp [hds], by simp, ?_, ?_⟩
        · intro c hc
          rcases List.mem_append.mp hc with h | h
          · exact hdig c h
          · simp only [List.mem_singleton] at h
            subst h
            omega
        · intro a
          have hsplit : valFrom a (ds ++ [digitChar (n % 10)]) =
              valFrom (valFrom a ds) [digitChar (n % 10)] := by
            simp [valFrom, List.foldl_append]
          rw [hsplit, hval a]
          simp only [valFrom, List.foldl_cons, List.foldl_nil, List.length_append,
            List.length_singleton, hd]
          have hpow : 10 ^ (ds.length + 1) = 10 ^ ds.length * 10 := by ring
          rw [hpow]
          have := Nat.div_add_mod n 10
          ring_nf
          omega

theorem natDigs_spec (n : Nat) :
    natDigs n ≠ [] ∧ (∀ c ∈ natDigs n, 48 ≤ c.toNat ∧ c.toNat ≤ 57) ∧
      digitsVal (natDigs n) = n := by
  by_cases h : n = 0
  · subst h
    refine ⟨by simp [natDigs], ?_, by decide⟩
    intro c hc
    simp [natDigs] at hc
    subst hc
    decide
  · obtain ⟨ds, hds, hne, hdig, hval⟩ := natDigsF_spec n n [] (by omega) le_rfl
    rw [show natDigs n = natDigsF n n [] by simp [natDigs, h], hds, List.append_nil]
    refine ⟨hne, hdig, ?_⟩
    have := hval 0
    simpa [digitsVal, valFrom] using this

theorem takeDigits_append (ds rest : List Char)
    (hd : ∀ c ∈ ds, 48 ≤ c.toNat ∧ c.toNat ≤ 57)
    (hr : noDigitStart rest = true) :
    takeDigits (ds ++ rest) = (ds, rest) := by
  induction ds with
  | nil =>
      cases rest with
      | nil => rfl
      | cons c t =>
          simp only [noDigitStart, Bool.not_eq_eq_eq_not, Bool.not_true] at hr
          simp [takeDigits, hr]
  | cons c t ih =>
      have hc := hd c (by simp)
      have hdig : isDigitC c = true := by
        simp only [isDigitC, decide_eq_true_eq]
        omega
      have ht := ih (fun x hx => hd x (by simp [hx]))
      simp [takeDigits, hdig, ht]

theorem jsizeV_pos (v : Json) : 1 ≤ jsizeV v := by
  cases v <;> simp [jsizeV]

mutual
theorem jsize_le_dumpV : ∀ v : Json, jsizeV v ≤ (dumpJson v).length
  | .null => by simp [jsizeV, dumpJson]
  | .boolean b => by cases b <;> simp [jsizeV, dumpJson]
  | .num i => by
      cases i with
      | ofNat n =>
          have hne := (natDigs_spec n).1
          have hlen : 1 ≤ (natDigs n).length := by
            rcases h : natDigs n with _ | ⟨c, t⟩
            · exact absurd h hne
            · simp
          simpa [jsizeV, dumpJson, dumpInt] using hlen
      | negSucc m => simp [jsizeV, dumpJson, dumpInt]
  | .str s => by simp [jsizeV, dumpJson]
  | .arr a => by
      have h := jsize_le_dumpA a
      simp only [jsizeV, dumpJson, List.length_cons, List.length_append,
        List.length_singleton]
      omega
  | .obj o => by
      have h := jsize_le_dumpO o
      simp only [jsizeV, dumpJson, List.length_cons, List.length_append,
        List.length_singleton]
      omega
theorem jsize_le_dumpA : ∀ a : JArr, jsizeA a ≤ (dumpArr a).length + 1
  | .nil => by simp [jsizeA, dumpArr]
  | .cons v .nil => by
      have h := jsize_le_dumpV v
      simp only [jsizeA, dumpArr]
      omega
  | .cons v (.cons w tl) => by
      have h1 := jsize_le_dumpV v
      have h2 := jsize_le_dumpA (.cons w tl)
      simp only [jsizeA, dumpArr, List.length_append, List.length_cons] at h2 ⊢
      omega
theorem jsize_le_dumpO : ∀ o : JObj, jsizeO o ≤ (dumpObj o).length + 1
  | .onil => by simp [jsizeO, dumpObj]
  | .ocons k v .onil => by
      have h := jsize_le_dumpV v
      simp only [jsizeO, dumpObj, List.length_cons, List.length_append]
      omega
  | .ocons k v (.ocons k2 w tl) => by
      have h1 := jsize_le_dumpV v
      have h2 := jsize_le_dumpO (.ocons k2 w tl)
      simp only [jsizeO, dumpObj, List.length_append, List.length_cons] at h2 ⊢
      omega
end

/-- Every dumped JSON value starts with a character that is neither `]`
nor `}` (so array/object item parsing never mistakes an element for the
closing bracket). -/
theorem dumpJson_head (v : Json) :
    ∃ c s, dumpJson v = c :: s ∧ c ≠ ']' ∧ c ≠ '}' := by
  cases v with
  | null => exact ⟨'n', _, rfl, by decide, by decide⟩
  | boolean b =>
      cases b
      · exact ⟨'f', _, rfl, by decide, by decide⟩
      · exact ⟨'t', _, rfl, by decide, by decide⟩
  | num i =>
      cases i with
      | ofNat n =>
          obtain ⟨hne, hdig, _⟩ := natDigs_spec n
          rcases hd : natDigs n with _ | ⟨c, s⟩
          · exact absurd hd hne
          · have hc := hdig c (by rw [hd]; simp)
            refine ⟨c, s, by simp [dumpJson, dumpInt, hd], ?_, ?_⟩
            · intro h
              subst h
              revert hc
              decide
            · intro h
              subst h
              revert hc
              decide
      | negSucc m => exact ⟨'-', _, rfl, by decide, by decide⟩
  | str s => exact ⟨'"', _, rfl, by decide, by decide⟩
  | arr a => exact ⟨'[', _, rfl, by decide, by decide⟩
  | obj o => exact ⟨'{', _, rfl, by decide, by decide⟩

theorem parseIntTok_dumpInt (i : Int) (rest : List Char)
    (hr : noDigitStart rest = true) :
    parseIntTok (dumpInt i ++ rest) = some (i, rest) := by
  cases i with
  | ofNat n =>
      obtain ⟨hne, hdig, hval⟩ := natDigs_spec n
      rcases hd : natDigs n with _ | ⟨c, ds⟩
      · exact absurd hd hne
      · have hc : 48 ≤ c.toNat ∧ c.toNat ≤ 57 := hdig c (by rw [hd]; simp)
        have hcm : c ≠ '-' := by
          intro h
          subst h
          revert hc
          decide
        have htake : takeDigits (c :: ds ++ rest) = (c :: ds, rest) := by
          have := takeDigits_append (c :: ds) rest (by rw [← hd]; exact hdig) hr
          simpa using this
        rw [show dumpInt (Int.ofNat n) = natDigs n from rfl, hd]
        rw [parseIntTok.eq_def]
        simp only [List.cons_append, if_neg hcm]
        rw [show ((c :: ds) ++ rest : List Char) = c :: (ds ++ rest) from rfl] at htake
        simp only [htake]
        have hv : digitsVal (c :: ds) = n := by rw [← hd] at *; exact hval
        simp [hv]
  | negSucc m =>
      obtain ⟨hne, hdig, hval⟩ := natDigs_spec (m + 1)
      have htake : takeDigits (natDigs (m + 1) ++ rest) = (natDigs (m + 1), rest) :=
        takeDigits_append _ rest hdig hr
      rw [show dumpInt (Int.negSucc m) = '-' :: natDigs (m + 1) from rfl]
      rw [parseIntTok.eq_def]
      simp only [List.cons_append, if_pos rfl]
      rcases hd : natDigs (m + 1) with _ | ⟨c, ds⟩
      · exact absurd hd hne
      · rw [hd] at htake
        simp only [htake]
        have hv : digitsVal (c :: ds) = m + 1 := by rw [hd] at hval; exact hval
        simp only [hv]
        have hneg : -((m + 1 : Nat) : Int) = Int.negSucc m := by
          rw [Int.negSucc_eq]
          push_cast
          ring
        rw [hneg]
        simp

/-- The decoder is a left inverse of the encoder, given enough fuel and
a trailing context that does not start with a digit. -/
theorem parseRT : ∀ f : Nat,
    (∀ (v : Json) (rest : List Char), jsizeV v ≤ f → noDigitStart rest = true →
       parseValue f (dumpJson v ++ rest) = some (v, rest)) ∧
    (∀ (a : JArr) (rest : List Char), a ≠ .nil → jsizeA a ≤ f →
       parseArrItems f (dumpArr a ++ ']' :: rest) = some (a, rest)) ∧
    (∀ (o : JObj) (rest : List Char), o ≠ .onil → jsizeO o ≤ f →
       parseObjItems f (dumpObj o ++ '}' :: rest) = some (o, rest)) := by
  intro f
  induction f with
  | zero =>
      refine ⟨?_, ?_, ?_⟩
      · intro v rest hs _
        have := jsizeV_pos v
        omega
      · intro a rest hne hs
        cases a with
        | nil => exact absurd rfl hne
        | cons v tl => simp [jsizeA] at hs
      · intro o rest hne hs
        cases o with
        | onil => exact absurd rfl hne
        | ocons k v tl => simp [jsizeO] at hs
  | succ f ih =>
      obtain ⟨IH1, IH2, IH3⟩ := ih
      refine ⟨?_, ?_, ?_⟩
      · intro v rest hs hnd
        cases v with
        | null =>
            rw [show dumpJson .null ++ rest = 'n' :: 'u' :: 'l' :: 'l' :: rest from
              rfl]
            rw [parseValue.eq_def]
            simp +decide [stripLit, mkLit]
        | boolean b =>
            cases b
            · rw [show dumpJson (.boolean false) ++ rest =
                  'f' :: 'a' :: 'l' :: 's' :: 'e' :: rest from rfl]
              rw [parseValue.eq_def]
              simp +decide [stripLit, mkLit]
            · rw [show dumpJson (.boolean true) ++ rest =
                  't' :: 'r' :: 'u' :: 'e' :: rest from rfl]
              rw [parseValue.eq_def]
              simp +decide [stripLit, mkLit]
        | num i =>
            have hit := parseIntTok_dumpInt i rest hnd
            have hhead : ∃ c ds, dumpInt i = c :: ds ∧
                (c = '-' ∨ isDigitC c = true) := by
              cases i with
              | ofNat n =>
                  obtain ⟨hne, hdig, _⟩ := natDigs_spec n
                  rcases hd : natDigs n with _ | ⟨c, ds⟩
                  · exact absurd hd hne
                  · refine ⟨c, ds, hd, Or.inr ?_⟩
                    have hc := hdig c (by rw [hd]; simp)
                    simp only [isDigitC, decide_eq_true_eq]
                    omega
              | negSucc m => exact ⟨'-', natDigs (m + 1), rfl, Or.inl rfl⟩
            obtain ⟨c, ds, hdi, hcond⟩ := hhead
            rw [show dumpJson (.num i) = dumpInt i from rfl, hdi, List.cons_append,
              parseValue.eq_def]
            simp only [hcond, if_true, ite_true, true_or, or_true, reduceIte]
            rw [← List.cons_append, ← hdi, hit]
            rfl
        | str s =>
            rw [show dumpJson (.str s) ++ rest = '"' :: (escStrL s ++ '"' :: rest) by
              simp [dumpJson]]
            rw [parseValue.eq_def]
            simp +decide [parseKey, parseStrBody_escStrL, combineUnits_unitsOf, mkStrV]
        | arr a =>
            cases a with
            | nil =>
                rw [show dumpJson (.arr .nil) ++ rest = '[' :: ']' :: rest by
                  simp [dumpJson, dumpArr]]
                rw [parseValue.eq_def]
                simp +decide
            | cons v tl =>
                have hsz : jsizeA (JArr.cons v tl) ≤ f := by
                  simp only [jsizeV] at hs
                  omega
                obtain ⟨c0, s0, hd0, hne1, hne2⟩ := dumpJson_head v
                obtain ⟨X, hX⟩ : ∃ X, dumpArr (JArr.cons v tl) = dumpJson v ++ X := by
                  cases tl with
                  | nil => exact ⟨[], by simp [dumpArr]⟩
                  | cons w tl2 =>
                      exact ⟨',' :: ' ' :: dumpArr (JArr.cons w tl2), rfl⟩
                have hshape : dumpJson (.arr (JArr.cons v tl)) ++ rest =
                    '[' :: c0 :: (s0 ++ (X ++ ']' :: rest)) := by
                  rw [show dumpJson (.arr (JArr.cons v tl)) =
                      '[' :: dumpArr (JArr.cons v tl) ++ [']'] from rfl, hX, hd0]
                  simp [List.append_assoc]
                rw [hshape, parseValue.eq_def]
                simp only [reduceIte, reduceCtorEq, if_neg hne1]
                rw [show c0 :: (s0 ++ (X ++ ']' :: rest)) =
                    dumpArr (JArr.cons v tl) ++ ']' :: rest by
                  rw [hX, hd0]
                  simp [List.append_assoc]]
                rw [IH2 (JArr.cons v tl) rest (by simp) hsz]
                rfl
        | obj o =>
            cases o with
            | onil =>
                rw [show dumpJson (.obj .onil) ++ rest = '{' :: '}' :: rest by
                  simp [dumpJson, dumpObj]]
                rw [parseValue.eq_def]
                simp +decide
            | ocons k v tl =>
                have hsz : jsizeO (JObj.ocons k v tl) ≤ f := by
                  simp only [jsizeV] at hs
                  omega
                obtain ⟨X, hX⟩ : ∃ X, dumpObj (JObj.ocons k v tl) = '"' :: X := by
                  cases tl with
                  | onil => exact ⟨escStrL k ++ '"' :: ':' :: ' ' :: dumpJson v, rfl⟩
                  | ocons k2 w tl2 =>
                      exact ⟨escStrL k ++ '"' :: ':' :: ' ' :: dumpJson v ++
                        ',' :: ' ' :: dumpObj (JObj.ocons k2 w tl2), rfl⟩
                have hshape : dumpJson (.obj (JObj.ocons k v tl)) ++ rest =
                    '{' :: '"' :: (X ++ '}' :: rest) := by
                  rw [show dumpJson (.obj (JObj.ocons k v tl)) =
                      '{' :: dumpObj (JObj.ocons k v tl) ++ ['}'] from rfl, hX]
                  simp [List.append_assoc]
                rw [hshape, parseValue.eq_def]
                simp only [reduceIte, reduceCtorEq]
                rw [show ('"' :: (X ++ '}' :: rest) : List Char) =
                    dumpObj (JObj.ocons k v tl) ++ '}' :: rest by
                  rw [hX]
                  simp [List.append_assoc]]
                rw [IH3 (JObj.ocons k v tl) rest (by simp) hsz]
                rfl
      · intro a rest hne hsz
        cases a with
        | nil => exact absurd rfl hne
        | cons v tl =>
            cases tl with
            | nil =>
                have h1 : parseValue f (dumpJson v ++ ']' :: rest) =
                    some (v, ']' :: rest) := by
                  refine IH1 v (']' :: rest) ?_ (by simp [noDigitStart, isDigitC])
                  simp only [jsizeA] at hsz
                  omega
                rw [show dumpArr (JArr.cons v .nil) ++ ']' :: rest =
                    dumpJson v ++ ']' :: rest by simp [dumpArr]]
                rw [parseArrItems.eq_def]
                simp +decide [h1]
            | cons w tl2 =>
                have h1 : parseValue f (dumpJson v ++
                    ',' :: ' ' :: (dumpArr (JArr.cons w tl2) ++ ']' :: rest)) =
                    some (v, ',' :: ' ' :: (dumpArr (JArr.cons w tl2) ++ ']' :: rest)) := by
                  refine IH1 v _ ?_ (by simp [noDigitStart, isDigitC])
                  simp only [jsizeA] at hsz
                  omega
                have h2 : parseArrItems f (dumpArr (JArr.cons w tl2) ++ ']' :: rest) =
                    some (JArr.cons w tl2, rest) := by
                  refine IH2 (JArr.cons w tl2) rest (by simp) ?_
                  simp only [jsizeA] at hsz ⊢
                  omega
                rw [show dumpArr (JArr.cons v (JArr.cons w tl2)) ++ ']' :: rest =
                    dumpJson v ++
                      ',' :: ' ' :: (dumpArr (JArr.cons w tl2) ++ ']' :: rest) by
                  rw [show dumpArr (JArr.cons v (JArr.cons w tl2)) =
                      dumpJson v ++ ',' :: ' ' :: dumpArr (JArr.cons w tl2) from rfl]
                  simp [List.append_assoc]]
                rw [parseArrItems.eq_def]
                simp +decide [expect, h1, h2, mkCons]
      · intro o rest hne hsz
        cases o with
        | onil => exact absurd rfl hne
        | ocons k v tl =>
            have hszv : jsizeV v ≤ f := by
              simp only [jsizeO] at hsz
              omega
            cases tl with
            | onil =>
                have h1 : parseValue f (dumpJson v ++ '}' :: rest) =
                    some (v, '}' :: rest) :=
                  IH1 v ('}' :: rest) hszv (by simp [noDigitStart, isDigitC])
                rw [show dumpObj (JObj.ocons k v .onil) ++ '}' :: rest =
                    '"' :: (escStrL k ++ '"' :: (':' :: ' ' ::
                      (dumpJson v ++ '}' :: rest))) by
                  rw [show dumpObj (JObj.ocons k v .onil) =
                      '"' :: escStrL k ++ '"' :: ':' :: ' ' :: dumpJson v from rfl]
                  simp [List.append_assoc]]
                rw [parseObjItems.eq_def]
                simp only [reduceIte, reduceCtorEq]
                rw [show parseKey (escStrL k ++ '"' :: (':' :: ' ' ::
                    (dumpJson v ++ '}' :: rest))) =
                    some (k, ':' :: ' ' :: (dumpJson v ++ '}' :: rest)) by
                  simp [parseKey, parseStrBody_escStrL, combineUnits_unitsOf]]
                simp +decide [expect2, expect, h1]
            | ocons k2 w tl2 =>
                have h1 : parseValue f (dumpJson v ++
                    ',' :: ' ' :: (dumpObj (JObj.ocons k2 w tl2) ++ '}' :: rest)) =
                    some (v, ',' :: ' ' ::
                      (dumpObj (JObj.ocons k2 w tl2) ++ '}' :: rest)) :=
                  IH1 v _ hszv (by simp [noDigitStart, isDigitC])
                have h2 : parseObjItems f
                    (dumpObj (JObj.ocons k2 w tl2) ++ '}' :: rest) =
                    some (JObj.ocons k2 w tl2, rest) := by
                  refine IH3 (JObj.ocons k2 w tl2) rest (by simp) ?_
                  simp only [jsizeO] at hsz ⊢
                  omega
                rw [show dumpObj (JObj.ocons k v (JObj.ocons k2 w tl2)) ++
                    '}' :: rest =
                    '"' :: (escStrL k ++ '"' :: (':' :: ' ' :: (dumpJson v ++
                      ',' :: ' ' :: (dumpObj (JObj.ocons k2 w tl2) ++
                        '}' :: rest)))) by
                  rw [show dumpObj (JObj.ocons k v (JObj.ocons k2 w tl2)) =
                      ('"' :: escStrL k ++ '"' :: ':' :: ' ' :: dumpJson v) ++
                        ',' :: ' ' :: dumpObj (JObj.ocons k2 w tl2) from rfl]
                  simp [List.append_assoc]]
                rw [parseObjItems.eq_def]
                simp only [reduceIte, reduceCtorEq]
                rw [show parseKey (escStrL k ++ '"' :: (':' :: ' ' :: (dumpJson v ++
                    ',' :: ' ' :: (dumpObj (JObj.ocons k2 w tl2) ++ '}' :: rest)))) =
                    some (k, ':' :: ' ' :: (dumpJson v ++ ',' :: ' ' ::
                      (dumpObj (JObj.ocons k2 w tl2) ++ '}' :: rest))) by
                  simp [parseKey, parseStrBody_escStrL, combineUnits_unitsOf]]
                simp +decide [expect2, expect, h1, h2, mkOCons]

/-- **C8.** Round-trip fidelity of the audit log: whenever the monitor
appends a record, decoding the written newline-terminated JSON line
reproduces the logged JSON value exactly, and that value carries the
original tool name (identifier) and tool input (payload) verbatim. -/
theorem auditRoundTrip (tool : String) (input : Json) (now errMsg : String)
    (e : LogEntry) (h : (mcpMonitor tool input now true errMsg).2 = some e) :
    decodeLine (encodeLine e) = some (entryJson e) ∧
    e.tool = tool ∧ e.input = input ∧
    jField (entryJson e) "tool".toList = some (.str e.tool.toList) ∧
    jField (entryJson e) "input".toList = some e.input := by
  have hrt : decodeLine (encodeLine e) = some (entryJson e) := by
    unfold decodeLine encodeLine
    have hb : jsizeV (entryJson e) ≤ (dumpJson (entryJson e) ++ ['\n']).length := by
      have hlen := jsize_le_dumpV (entryJson e)
      simp only [List.length_append, List.length_singleton]
      omega
    rw [(parseRT ((dumpJson (entryJson e) ++ ['\n']).length)).1 (entryJson e) ['\n']
      hb (by decide)]
    simp
  have hb2 : firstBlocked BLOCKED_MCP_TOOLS tool = false := by
    cases hfb : firstBlocked BLOCKED_MCP_TOOLS tool
    · rfl
    · rw [mcpMonitor_blocked tool input now true errMsg hfb] at h
      simp at h
  rw [mcpMonitor_not_blocked tool input now true errMsg hb2] at h
  simp only [if_true, ite_true, reduceIte, Option.some.injEq] at h
  subst h
  refine ⟨hrt, rfl, rfl, ?_, ?_⟩ <;> simp +decide [entryJson, jField, jFieldO]

theorem auditRoundTripWitness :
    decodeLine (encodeLine (⟨"2026-01-01T00:00:00", "mcp__weather__get",
      .obj (.ocons "city".toList (.str "Paris".toList)
        (.ocons "n".toList (.num 3) .onil))⟩ : LogEntry)) =
      some (entryJson ⟨"2026-01-01T00:00:00", "mcp__weather__get",
        .obj (.ocons "city".toList (.str "Paris".toList)
          (.ocons "n".toList (.num 3) .onil))⟩) ∧
    (⟨"2026-01-01T00:00:00", "mcp__weather__get",
      .obj (.ocons "city".toList (.str "Paris".toList)
        (.ocons "n".toList (.num 3) .onil))⟩ : LogEntry).tool = "mcp__weather__get" ∧
    (⟨"2026-01-01T00:00:00", "mcp__weather__get",
      .obj (.ocons "city".toList (.str "Paris".toList)
        (.ocons "n".toList (.num 3) .onil))⟩ : LogEntry).input =
      .obj (.ocons "city".toList (.str "Paris".toList)
        (.ocons "n".toList (.num 3) .onil)) ∧
    jField (entryJson ⟨"2026-01-01T00:00:00", "mcp__weather__get",
      .obj (.ocons "city".toList (.str "Paris".toList)
        (.ocons "n".toList (.num 3) .onil))⟩) "tool".toList =
      some (.str "mcp__weather__get".toList) ∧
    jField (entryJson ⟨"2026-01-01T00:00:00", "mcp__weather__get",
      .obj (.ocons "city".toList (.str "Paris".toList)
        (.ocons "n".toList (.num 3) .onil))⟩) "input".toList =
      some (.obj (.ocons "city".toList (.str "Paris".toList)
        (.ocons "n".toList (.num 3) .onil))) :=
  auditRoundTrip "mcp__weather__get"
    (.obj (.ocons "city".toList (.str "Paris".toList)
      (.ocons "n".toList (.num 3) .onil)))
    "2026-01-01T00:00:00" "" _ rfl

